import Mathlib

/-!
Verification of the lisp_parser repository.

The public entry point `parse_lisp_program` in `src/lib.rs` instantiates the
`LispParser` of the inline module `lisp_parser` declared in the same file
(`mod lisp_parser { ... }` with a body; the sibling file `src/lisp_parser.rs`
is not referenced by any `mod` declaration and is therefore dead code).
The definitions below are a shallow embedding of that inline module.

Strings are modelled as lists of characters.  Rust `CharIndices` yields byte
offsets, and the parser slices the program at byte offsets, so byte arithmetic
is modelled exactly: `utf8Len` accumulates `Char.utf8Size`, and `byteSplit`
splits a character list at a byte offset, returning `none` when the offset is
not a character boundary (in Rust this panics).

The recursive-descent part (`parse_object` / `parse_list` / `parse_program`)
is modelled as one fuel-indexed step function `run`; `Res.fuelOut` means the
fuel bound was hit.  Errors carry the parser state at the moment of the
`return Err(..)` (in Rust the mutated `self` survives an `Err` and is used by
`parse_list` when it catches `UnexpectedClosingParenthesis`).
-/

namespace LispParser

/-- `TextPosition` from lib.rs: 1-based line and column. -/
structure TextPosition where
  line : Nat
  column : Nat
deriving DecidableEq, Repr

/-- `LispObject` from lib.rs. -/
inductive LispObject where
  | String (chars : List Char)
  | List (items : List LispObject)

/-- `LispParsingError` from lib.rs. -/
inductive LispParsingError where
  | UnclosedQuote (openingQuotePosition : TextPosition)
  | UnclosedParenthesis (openingParenthesisPosition : TextPosition)
  | UnexpectedClosingParenthesis (closingParenthesisPosition : TextPosition)
deriving DecidableEq, Repr

/-- The mutable state of `LispParser`: the current `program` slice, how many
characters of it the `CharIndices` iterator has already yielded (`iter`),
`text_position` and `last_character_was_a_newline`. -/
structure ParserState where
  program : List Char
  iter : Nat
  textPosition : TextPosition
  lastCharacterWasANewline : Bool
deriving Repr

/-- Result of an internal parser operation.  `err` keeps the state (Rust's
`self` survives a returned `Err`), `panicked` models a Rust panic, `fuelOut`
is the artificial fuel bound of the embedding. -/
inductive Res (α : Type) where
  | fuelOut
  | panicked
  | err (e : LispParsingError) (s : ParserState)
  | ok (a : α)

/-- Result of the public `parse_lisp_program` (state dropped from errors). -/
inductive TopRes where
  | fuelOut
  | panicked
  | err (e : LispParsingError)
  | ok (objects : List LispObject)

/-- The position/newline-flag update performed by `<LispParser as Iterator>::next`
for one consumed character. -/
def stepPos (pos : TextPosition) (lastNl : Bool) (c : Char) : TextPosition × Bool :=
  let pos' : TextPosition := if lastNl then ⟨pos.line + 1, 1⟩ else ⟨pos.line, pos.column + 1⟩
  (pos', c == '\n')

/-- Rust `char::is_whitespace`: the Unicode `White_Space` property. -/
def rustIsWhitespace (c : Char) : Bool :=
  c.toNat == 0x9 || c.toNat == 0xA || c.toNat == 0xB || c.toNat == 0xC ||
  c.toNat == 0xD || c.toNat == 0x20 || c.toNat == 0x85 || c.toNat == 0xA0 ||
  c.toNat == 0x1680 || c.toNat == 0x2000 || c.toNat == 0x2001 || c.toNat == 0x2002 ||
  c.toNat == 0x2003 || c.toNat == 0x2004 || c.toNat == 0x2005 || c.toNat == 0x2006 ||
  c.toNat == 0x2007 || c.toNat == 0x2008 || c.toNat == 0x2009 || c.toNat == 0x200A ||
  c.toNat == 0x2028 || c.toNat == 0x2029 || c.toNat == 0x202F || c.toNat == 0x205F ||
  c.toNat == 0x3000

/-- The characters that end a word in `parse_word` (and cannot start one). -/
def isTerminator (c : Char) : Bool :=
  rustIsWhitespace c || c == '"' || c == ')' || c == '('

/-- UTF-8 byte length of a character list (matches Rust byte offsets). -/
def utf8Len : List Char → Nat
  | [] => 0
  | c :: rest => c.utf8Size + utf8Len rest

/-- Split a character list at a byte offset.  `none` when the offset is not a
character boundary or exceeds the byte length; Rust string slicing panics
in exactly those cases. -/
def byteSplit : List Char → Nat → Option (List Char × List Char)
  | l, 0 => some ([], l)
  | [], _ + 1 => none
  | c :: rest, n + 1 =>
    if c.utf8Size ≤ n + 1 then
      match byteSplit rest (n + 1 - c.utf8Size) with
      | some (a, b) => some (c :: a, b)
      | none => none
    else none

/-- `<LispParser as Iterator>::next`: yield the next `(byte_index, char)` of the
current program slice and advance the text position. -/
def ParserState.next (s : ParserState) : Option ((Nat × Char) × ParserState) :=
  match s.program.drop s.iter with
  | [] => none
  | c :: _ =>
    let p := stepPos s.textPosition s.lastCharacterWasANewline c
    some ((utf8Len (s.program.take s.iter), c), ⟨s.program, s.iter + 1, p.1, p.2⟩)

/-- Loop body of `skip_whitespaces`: `rem` is what the iterator has not yet
yielded, `k` the number of characters already yielded.  On the first
non-whitespace character the program is re-sliced from that character
(`self.set_program(&self.program[index..])`), which resets the iterator. -/
def skipWsGo (program : List Char) : List Char → Nat → TextPosition → Bool → ParserState
  | [], k, pos, nl => ⟨program, k, pos, nl⟩
  | c :: rest, k, pos, nl =>
    let p := stepPos pos nl c
    if rustIsWhitespace c then skipWsGo program rest (k + 1) p.1 p.2
    else ⟨program.drop k, 0, p.1, p.2⟩

/-- `LispParser::skip_whitespaces`. -/
def skipWhitespaces (s : ParserState) : ParserState :=
  skipWsGo s.program (s.program.drop s.iter) s.iter s.textPosition s.lastCharacterWasANewline

/-- Loop body of `parse_string`.  On a closing `"` at character position `k`
(byte position `utf8Len (program.take k)`) it returns
`self.slice(index)` = the first `k` characters, and the program becomes the
rest starting at the closing quote itself. -/
def parseStringGo (program : List Char) (openingQuotePosition : TextPosition) :
    List Char → Nat → TextPosition → Bool → Res (LispObject × ParserState)
  | [], k, pos, nl => .err (.UnclosedQuote openingQuotePosition) ⟨program, k, pos, nl⟩
  | c :: rest, k, pos, nl =>
    let p := stepPos pos nl c
    if c == '"' then
      .ok (.String (program.take k), ⟨program.drop k, 0, p.1, p.2⟩)
    else parseStringGo program openingQuotePosition rest (k + 1) p.1 p.2

/-- `LispParser::parse_string` (lib.rs): `opening_quote_position` is the text
position on entry, i.e. after the opening `"` was consumed by `parse_object`. -/
def parseString (s : ParserState) : Res (LispObject × ParserState) :=
  parseStringGo s.program s.textPosition (s.program.drop s.iter) s.iter
    s.textPosition s.lastCharacterWasANewline

/-- Loop body of `parse_word`.  On a terminator at byte index `i` it returns
`self.slice(i - 1)` (note the `- 1`), a split at byte `i - 1`, which panics
when that is not a character boundary.  At end of input it returns the whole
current program slice and sets the program to the empty string. -/
def parseWordGo (program : List Char) : List Char → Nat → TextPosition → Bool →
    Res (LispObject × ParserState)
  | [], _, pos, nl => .ok (.String program, ⟨[], 0, pos, nl⟩)
  | c :: rest, k, pos, nl =>
    let p := stepPos pos nl c
    if isTerminator c then
      match byteSplit program (utf8Len (program.take k) - 1) with
      | some (a, b) => .ok (.String a, ⟨b, 0, p.1, p.2⟩)
      | none => .panicked
    else parseWordGo program rest (k + 1) p.1 p.2

/-- `LispParser::parse_word` (lib.rs). -/
def parseWord (s : ParserState) : Res (LispObject × ParserState) :=
  parseWordGo s.program (s.program.drop s.iter) s.iter
    s.textPosition s.lastCharacterWasANewline

/-- Requests for the fuel-indexed interpreter: `obj` is `parse_object`, `lst`
is the loop of `parse_list` (opening position already recorded, accumulated
children in `acc`), `prog` is the loop of `parse_program`. -/
inductive Req where
  | obj (s : ParserState)
  | lst (s : ParserState) (openingParenthesisPosition : TextPosition) (acc : List LispObject)
  | prog (s : ParserState) (acc : List LispObject)

/-- Answers of the interpreter, tagged by request kind. -/
inductive Ans where
  | obj (result : Option LispObject × ParserState)
  | lst (result : LispObject × ParserState)
  | prog (result : List LispObject)

/-- The mutually recursive `parse_object` / `parse_list` / `parse_program` of
lib.rs as one fuel-indexed function.

`parse_object` first skips whitespace, records `opening_parenthesis_position`
(the text position before `self.next()`), consumes the dispatch character and
branches; note that on `')'` lib.rs constructs `UnclosedParenthesis` carrying
that recorded position.  `parse_list` records its opening position on entry
(after the `'('` was consumed) and closes only when a child parse reports
`UnexpectedClosingParenthesis`. -/
def run : Nat → Req → Res Ans
  | 0, _ => .fuelOut
  | n + 1, .obj s =>
    let s1 := skipWhitespaces s
    match s1.next with
    | none => .ok (.obj (none, s1))
    | some ((_, c), s2) =>
      if c == '(' then
        match run n (.lst s2 s2.textPosition []) with
        | .ok (.lst (o, s3)) => .ok (.obj (some o, s3))
        | .ok _ => .panicked
        | .err e s3 => .err e s3
        | .fuelOut => .fuelOut
        | .panicked => .panicked
      else if c == ')' then .err (.UnclosedParenthesis s1.textPosition) s2
      else if c == '"' then
        match parseString s2 with
        | .ok (o, s3) => .ok (.obj (some o, s3))
        | .err e s3 => .err e s3
        | .fuelOut => .fuelOut
        | .panicked => .panicked
      else
        match parseWord s2 with
        | .ok (o, s3) => .ok (.obj (some o, s3))
        | .err e s3 => .err e s3
        | .fuelOut => .fuelOut
        | .panicked => .panicked
  | n + 1, .lst s openPos acc =>
    match run n (.obj s) with
    | .err (.UnexpectedClosingParenthesis _) s' => .ok (.lst (.List acc, s'))
    | .err e s' => .err e s'
    | .ok (.obj (some o, s')) => run n (.lst s' openPos (acc ++ [o]))
    | .ok (.obj (none, s')) => .err (.UnclosedParenthesis openPos) s'
    | .ok _ => .panicked
    | .fuelOut => .fuelOut
    | .panicked => .panicked
  | n + 1, .prog s acc =>
    match run n (.obj s) with
    | .ok (.obj (some o, s')) => run n (.prog s' (acc ++ [o]))
    | .ok (.obj (none, _)) => .ok (.prog acc)
    | .ok _ => .panicked
    | .err e s' => .err e s'
    | .fuelOut => .fuelOut
    | .panicked => .panicked

/-- `parse_lisp_program` from lib.rs: fresh parser state (line 1, column 1,
newline flag clear, iterator at the start) and `parse_program`. -/
def parseLispProgram (fuel : Nat) (program : List Char) : TopRes :=
  match run fuel (.prog ⟨program, 0, ⟨1, 1⟩, false⟩ []) with
  | .ok (.prog l) => .ok l
  | .ok _ => .panicked
  | .err e _ => .err e
  | .fuelOut => .fuelOut
  | .panicked => .panicked

/-- The mixed-program input of the `complex_program_parsing_test` test. -/
def mixedProgram : List Char :=
  ("\n            a\n            (b c (d e f))\n            \"ghi jkl\" (m n\"o\"(p q r(s t\"u v) w\")))\n            x y z\n            ").toList

/-- A program slice on which `parse_object` loops: a one-byte word character
followed immediately by a terminator.  `parse_word` then returns
`self.slice(index - 1)` with `index - 1 = 0`, i.e. an empty atom, and leaves
the program unchanged, so the enclosing loop repeats forever. -/
def Cyc (p : List Char) : Prop :=
  ∃ x t q, p = x :: t :: q ∧ isTerminator x = false ∧ x.utf8Size = 1 ∧
    isTerminator t = true

mutual

/-- Every `String` atom in the object is non-empty. -/
def AtomsNonEmpty : LispObject → Prop
  | .String w => w ≠ []
  | .List items => AtomsNonEmptyList items

/-- Every `String` atom in any object of the list is non-empty. -/
def AtomsNonEmptyList : List LispObject → Prop
  | [] => True
  | o :: rest => AtomsNonEmpty o ∧ AtomsNonEmptyList rest

end

mutual

/-- `RendersObj o r`: `r` is a rendering of `o` — atoms verbatim, lists
wrapped in parentheses around a rendering of their children. -/
inductive RendersObj : LispObject → List Char → Prop where
  | str (w : List Char) : RendersObj (.String w) w
  | list (items : List LispObject) (r : List Char) :
      RendersSibs items r → RendersObj (.List items) ('(' :: r ++ [')'])

/-- `RendersSibs objs r`: `r` renders the sibling objects `objs` in order,
with an arbitrary non-empty run of whitespace between consecutive siblings. -/
inductive RendersSibs : List LispObject → List Char → Prop where
  | nil : RendersSibs [] []
  | single (o : LispObject) (r : List Char) : RendersObj o r → RendersSibs [o] r
  | cons (o : LispObject) (r sep rr : List Char) (rest : List LispObject) :
      RendersObj o r → rest ≠ [] → sep ≠ [] →
      (∀ c ∈ sep, rustIsWhitespace c = true) →
      RendersSibs rest rr → RendersSibs (o :: rest) (r ++ sep ++ rr)

end

/-! ### Byte-arithmetic lemmas -/

theorem utf8Len_append (a b : List Char) :
    utf8Len (a ++ b) = utf8Len a + utf8Len b := by
  induction a with
  | nil => simp [utf8Len]
  | cons c rest ih => simp [utf8Len, ih]; omega

theorem utf8Len_eq_zero {l : List Char} : utf8Len l = 0 ↔ l = [] := by
  cases l with
  | nil => simp [utf8Len]
  | cons c rest =>
    simp [utf8Len]
    have := Char.utf8Size_pos c
    omega

theorem byteSplit_eq_some :
    ∀ (l : List Char) (n : Nat) (a b : List Char),
      byteSplit l n = some (a, b) → l = a ++ b ∧ utf8Len a = n := by
  intro l
  induction l with
  | nil =>
    intro n a b h
    cases n with
    | zero =>
      simp [byteSplit] at h
      obtain ⟨ha, hb⟩ := h
      subst ha; subst hb
      simp [utf8Len]
    | succ m => simp [byteSplit] at h
  | cons c rest ih =>
    intro n a b h
    cases n with
    | zero =>
      simp [byteSplit] at h
      obtain ⟨ha, hb⟩ := h
      subst ha; subst hb
      simp [utf8Len]
    | succ m =>
      simp only [byteSplit] at h
      by_cases hle : c.utf8Size ≤ m + 1
      · rw [if_pos hle] at h
        cases hbs : byteSplit rest (m + 1 - c.utf8Size) with
        | none => rw [hbs] at h; simp at h
        | some ab =>
          obtain ⟨a', b'⟩ := ab
          rw [hbs] at h
          simp at h
          obtain ⟨ha, hb⟩ := h
          obtain ⟨hr, hlen⟩ := ih (m + 1 - c.utf8Size) a' b' hbs
          subst ha hb
          constructor
          · simp [hr]
          · simp [utf8Len, hlen]; omega
      · rw [if_neg hle] at h; simp at h

theorem utf8Len_take_le (l : List Char) (n : Nat) :
    utf8Len (l.take n) ≤ utf8Len l := by
  conv_rhs => rw [← List.take_append_drop n l]
  rw [utf8Len_append]
  omega

theorem utf8Len_take_mono (l : List Char) {i j : Nat} (h : i ≤ j) :
    utf8Len (l.take i) ≤ utf8Len (l.take j) := by
  have h1 : (l.take j).take i = l.take i := by
    rw [List.take_take, Nat.min_eq_left h]
  calc utf8Len (l.take i) = utf8Len ((l.take j).take i) := by rw [h1]
    _ ≤ utf8Len (l.take j) := utf8Len_take_le _ _

theorem utf8Len_take_lt (l : List Char) {i j : Nat} (hij : i < j)
    (hjl : j ≤ l.length) : utf8Len (l.take i) < utf8Len (l.take j) := by
  have hsplit : (l.take j).take i ++ (l.take j).drop i = l.take j :=
    List.take_append_drop i (l.take j)
  have h1 : (l.take j).take i = l.take i := by
    rw [List.take_take, Nat.min_eq_left (Nat.le_of_lt hij)]
  have hseg : (l.take j).drop i ≠ [] := by
    intro hnil
    have hlen := congrArg List.length hnil
    simp [List.length_drop, List.length_take] at hlen
    omega
  have hpos : 1 ≤ utf8Len ((l.take j).drop i) := by
    rcases Nat.eq_zero_or_pos (utf8Len ((l.take j).drop i)) with h0 | h0
    · exact absurd (utf8Len_eq_zero.mp h0) hseg
    · exact h0
  calc utf8Len (l.take i) = utf8Len ((l.take j).take i) := by rw [h1]
    _ < utf8Len ((l.take j).take i) + utf8Len ((l.take j).drop i) := by omega
    _ = utf8Len (l.take j) := by rw [← utf8Len_append, hsplit]

theorem drop_cons_succ (l : List Char) (k : Nat) (c : Char) (rest : List Char)
    (h : l.drop k = c :: rest) : l.drop (k + 1) = rest := by
  have h2 := List.drop_drop 1 k l
  rw [h] at h2
  simpa using h2.symm

theorem take_succ_of_drop (l : List Char) (k : Nat) (c : Char)
    (rest : List Char) (h : l.drop k = c :: rest) :
    l.take (k + 1) = l.take k ++ [c] := by
  rw [List.take_add l k 1, h]
  rfl

/-! ### Shape lemmas for the scanning loops -/

theorem skipWsGo_shape (program : List Char) :
    ∀ (rem : List Char) (k : Nat) (pos : TextPosition) (nl : Bool),
      rem = program.drop k →
      (∃ j pos' nl', skipWsGo program rem k pos nl = ⟨program, j, pos', nl'⟩ ∧
        program.drop j = []) ∨
      (∃ c q pos' nl', skipWsGo program rem k pos nl = ⟨c :: q, 0, pos', nl'⟩ ∧
        rustIsWhitespace c = false) := by
  intro rem
  induction rem with
  | nil =>
    intro k pos nl hrem
    left
    exact ⟨k, pos, nl, rfl, hrem.symm⟩
  | cons c rest ih =>
    intro k pos nl hrem
    by_cases hws : rustIsWhitespace c
    · have hrem' : rest = program.drop (k + 1) :=
        (drop_cons_succ program k c rest hrem.symm).symm
      have := ih (k + 1) (stepPos pos nl c).1 (stepPos pos nl c).2 hrem'
      simpa [skipWsGo, hws] using this
    · right
      refine ⟨c, rest, (stepPos pos nl c).1, (stepPos pos nl c).2, ?_, by
        simpa using hws⟩
      simp [skipWsGo, hws, hrem.symm]

theorem skipWhitespaces_shape (s : ParserState) :
    (∃ j pos' nl', skipWhitespaces s = ⟨s.program, j, pos', nl'⟩ ∧
      s.program.drop j = []) ∨
    (∃ c q pos' nl', skipWhitespaces s = ⟨c :: q, 0, pos', nl'⟩ ∧
      rustIsWhitespace c = false) :=
  skipWsGo_shape s.program (s.program.drop s.iter) s.iter s.textPosition
    s.lastCharacterWasANewline rfl

theorem parseStringGo_err (program : List Char) (openPos : TextPosition) :
    ∀ (rem : List Char) (k : Nat) (pos : TextPosition) (nl : Bool)
      (e : LispParsingError) (s' : ParserState),
      parseStringGo program openPos rem k pos nl = .err e s' →
      e = .UnclosedQuote openPos := by
  intro rem
  induction rem with
  | nil =>
    intro k pos nl e s' h
    simp [parseStringGo] at h
    exact h.1.symm
  | cons c rest ih =>
    intro k pos nl e s' h
    by_cases hq : c == '"'
    · simp [parseStringGo, hq] at h
    · simp only [parseStringGo, Bool.if_false_left] at h
      rw [if_neg hq] at h
      exact ih _ _ _ _ _ h

theorem parseStringGo_ok (program : List Char) (openPos : TextPosition) :
    ∀ (rem : List Char) (k : Nat) (pos : TextPosition) (nl : Bool)
      (o : LispObject) (s' : ParserState),
      rem = program.drop k →
      parseStringGo program openPos rem k pos nl = .ok (o, s') →
      ∃ j q pos' nl', k ≤ j ∧ program.drop j = '"' :: q ∧
        o = .String (program.take j) ∧ s' = ⟨'"' :: q, 0, pos', nl'⟩ := by
  intro rem
  induction rem with
  | nil => intro k pos nl o s' hrem h; simp [parseStringGo] at h
  | cons c rest ih =>
    intro k pos nl o s' hrem h
    by_cases hq : c == '"'
    · have hc : c = '"' := by simpa using hq
      subst hc
      simp [parseStringGo] at h
      obtain ⟨ho, hs⟩ := h
      refine ⟨k, rest, (stepPos pos nl '"').1, (stepPos pos nl '"').2,
        Nat.le_refl k, hrem.symm, ho.symm, ?_⟩
      rw [← hs, ← hrem]
    · simp only [parseStringGo] at h
      rw [if_neg hq] at h
      have hrem' : rest = program.drop (k + 1) :=
        (drop_cons_succ program k c rest hrem.symm).symm
      obtain ⟨j, q, pos', nl', hkj, hdrop, ho, hs⟩ := ih _ _ _ _ _ hrem' h
      exact ⟨j, q, pos', nl', by omega, hdrop, ho, hs⟩

theorem parseWordGo_no_err (program : List Char) :
    ∀ (rem : List Char) (k : Nat) (pos : TextPosition) (nl : Bool)
      (e : LispParsingError) (s' : ParserState),
      parseWordGo program rem k pos nl ≠ .err e s' := by
  intro rem
  induction rem with
  | nil => intro k pos nl e s' h; simp [parseWordGo] at h
  | cons c rest ih =>
    intro k pos nl e s' h
    by_cases ht : isTerminator c
    · simp only [parseWordGo] at h
      rw [if_pos ht] at h
      cases hbs : byteSplit program (utf8Len (program.take k) - 1) with
      | none => rw [hbs] at h; simp at h
      | some ab => obtain ⟨a, b⟩ := ab; rw [hbs] at h; simp at h
    · simp only [parseWordGo] at h
      rw [if_neg ht] at h
      exact ih _ _ _ _ _ h

/-! ### Dispatch helpers -/

theorem isTerminator_false_parts (c : Char) (h : isTerminator c = false) :
    rustIsWhitespace c = false ∧ c ≠ '"' ∧ c ≠ ')' ∧ c ≠ '(' := by
  simp [isTerminator] at h
  exact ⟨h.1.1.1, h.1.1.2, h.1.2, h.2⟩

theorem dispatch_cases (c : Char) (hws : rustIsWhitespace c = false) :
    c = '(' ∨ c = ')' ∨ c = '"' ∨ isTerminator c = false := by
  by_cases h1 : c = '('
  · exact Or.inl h1
  by_cases h2 : c = ')'
  · exact Or.inr (Or.inl h2)
  by_cases h3 : c = '"'
  · exact Or.inr (Or.inr (Or.inl h3))
  refine Or.inr (Or.inr (Or.inr ?_))
  simp [isTerminator, hws, h1, h2, h3]

theorem next_end (p : List Char) (j : Nat) (pos : TextPosition) (nl : Bool)
    (h : p.drop j = []) : ParserState.next ⟨p, j, pos, nl⟩ = none := by
  simp [ParserState.next, h]

theorem next_zero_cons (c : Char) (q : List Char) (pos : TextPosition) (nl : Bool) :
    ParserState.next ⟨c :: q, 0, pos, nl⟩ =
      some ((0, c), ⟨c :: q, 1, (stepPos pos nl c).1, (stepPos pos nl c).2⟩) := rfl

/-! ### `UnexpectedClosingParenthesis` is never constructed, and the
`parse_list` loop can therefore never return `Ok` -/

theorem run_no_unexpected_and_lst_no_ok (n : Nat) :
    (∀ req p s', run n req ≠ .err (.UnexpectedClosingParenthesis p) s') ∧
    (∀ s openPos acc a, run n (.lst s openPos acc) ≠ .ok a) := by
  induction n with
  | zero =>
    constructor
    · intro req p s' h; simp [run] at h
    · intro s openPos acc a h; simp [run] at h
  | succ m ih =>
    obtain ⟨ihU, ihL⟩ := ih
    have objU : ∀ s p s', run (m + 1) (.obj s) ≠
        .err (.UnexpectedClosingParenthesis p) s' := by
      intro s p s' h
      cases hnext : (skipWhitespaces s).next with
      | none => simp [run, hnext] at h
      | some x =>
        obtain ⟨⟨idx, c⟩, s2⟩ := x
        by_cases h1 : c == '('
        · cases hr : run m (.lst s2 s2.textPosition []) with
          | fuelOut => simp [run, hnext, h1, hr] at h
          | panicked => simp [run, hnext, h1, hr] at h
          | err e s3 =>
            cases e with
            | UnexpectedClosingParenthesis p0 => exact ihU _ _ _ hr
            | UnclosedQuote p0 => simp [run, hnext, h1, hr] at h
            | UnclosedParenthesis p0 => simp [run, hnext, h1, hr] at h
          | ok a =>
            cases a with
            | lst r => obtain ⟨o, s3⟩ := r; simp [run, hnext, h1, hr] at h
            | obj r => simp [run, hnext, h1, hr] at h
            | prog r => simp [run, hnext, h1, hr] at h
        · by_cases h2 : c == ')'
          · simp [run, hnext, h1, h2] at h
          · by_cases h3 : c == '"'
            · cases hstr : parseString s2 with
              | fuelOut => simp [run, hnext, h1, h2, h3, hstr] at h
              | panicked => simp [run, hnext, h1, h2, h3, hstr] at h
              | err e s3 =>
                have he := parseStringGo_err _ _ _ _ _ _ _ _ hstr
                subst he
                simp [run, hnext, h1, h2, h3, hstr] at h
              | ok a =>
                obtain ⟨o, s3⟩ := a
                simp [run, hnext, h1, h2, h3, hstr] at h
            · cases hw : parseWord s2 with
              | fuelOut => simp [run, hnext, h1, h2, h3, hw] at h
              | panicked => simp [run, hnext, h1, h2, h3, hw] at h
              | err e s3 => exact parseWordGo_no_err _ _ _ _ _ _ _ hw
              | ok a =>
                obtain ⟨o, s3⟩ := a
                simp [run, hnext, h1, h2, h3, hw] at h
    constructor
    · intro req p s' h
      match req with
      | .obj s => exact objU s p s' h
      | .lst s openPos acc =>
        cases hr : run m (.obj s) with
        | fuelOut => simp [run, hr] at h
        | panicked => simp [run, hr] at h
        | err e s3 =>
          cases e with
          | UnexpectedClosingParenthesis p0 => exact ihU _ _ _ hr
          | UnclosedQuote p0 => simp [run, hr] at h
          | UnclosedParenthesis p0 => simp [run, hr] at h
        | ok a =>
          cases a with
          | lst r => simp [run, hr] at h
          | prog r => simp [run, hr] at h
          | obj r =>
            obtain ⟨oo, s3⟩ := r
            cases oo with
            | none => simp [run, hr] at h
            | some o =>
              simp only [run, hr] at h
              exact ihU _ _ _ h
      | .prog s acc =>
        cases hr : run m (.obj s) with
        | fuelOut => simp [run, hr] at h
        | panicked => simp [run, hr] at h
        | err e s3 =>
          cases e with
          | UnexpectedClosingParenthesis p0 => exact ihU _ _ _ hr
          | UnclosedQuote p0 => simp [run, hr] at h
          | UnclosedParenthesis p0 => simp [run, hr] at h
        | ok a =>
          cases a with
          | lst r => simp [run, hr] at h
          | prog r => simp [run, hr] at h
          | obj r =>
            obtain ⟨oo, s3⟩ := r
            cases oo with
            | none => simp [run, hr] at h
            | some o =>
              simp only [run, hr] at h
              exact ihU _ _ _ h
    · intro s openPos acc a h
      cases hr : run m (.obj s) with
      | fuelOut => simp [run, hr] at h
      | panicked => simp [run, hr] at h
      | err e s3 =>
        cases e with
        | UnexpectedClosingParenthesis p0 => exact ihU _ _ _ hr
        | UnclosedQuote p0 => simp [run, hr] at h
        | UnclosedParenthesis p0 => simp [run, hr] at h
      | ok a' =>
        cases a' with
        | lst r => simp [run, hr] at h
        | prog r => simp [run, hr] at h
        | obj r =>
          obtain ⟨oo, s3⟩ := r
          cases oo with
          | none => simp [run, hr] at h
          | some o =>
            simp only [run, hr] at h
            exact ihL _ _ _ _ h

/-! ### Characterization of `parse_word` results -/

theorem parseWordGo_term_head (program : List Char) (t : Char) (rest : List Char)
    (pos : TextPosition) (nl : Bool) (ht : isTerminator t = true)
    (h1 : utf8Len (program.take 1) = 1) :
    parseWordGo program (t :: rest) 1 pos nl =
      .ok (.String [], ⟨program, 0, (stepPos pos nl t).1, (stepPos pos nl t).2⟩) := by
  simp [parseWordGo, ht, h1, byteSplit]

theorem parseWordGo_all_nonterm (program : List Char) :
    ∀ (rem : List Char) (k : Nat) (pos : TextPosition) (nl : Bool),
      (∀ c ∈ rem, isTerminator c = false) →
      ∃ pos' nl', parseWordGo program rem k pos nl =
        .ok (.String program, ⟨[], 0, pos', nl'⟩) := by
  intro rem
  induction rem with
  | nil => intro k pos nl _; exact ⟨pos, nl, by simp [parseWordGo]⟩
  | cons c rest ih =>
    intro k pos nl hall
    have hc : isTerminator c = false := hall c (by simp)
    have hrest : ∀ c' ∈ rest, isTerminator c' = false := fun c' hc' =>
      hall c' (by simp [hc'])
    obtain ⟨pos', nl', hres⟩ := ih (k + 1) (stepPos pos nl c).1 (stepPos pos nl c).2 hrest
    exact ⟨pos', nl', by simp [parseWordGo, hc, hres]⟩

theorem parseWordGo_ok (program : List Char) :
    ∀ (rem : List Char) (k : Nat) (pos : TextPosition) (nl : Bool)
      (o : LispObject) (s' : ParserState),
      rem = program.drop k → 1 ≤ k →
      (∀ c ∈ program.take k, isTerminator c = false) →
      parseWordGo program rem k pos nl = .ok (o, s') →
      (o = .String program ∧ (∃ pos' nl', s' = ⟨[], 0, pos', nl'⟩) ∧
        ∀ c ∈ program, isTerminator c = false) ∨
      (∃ w x t q2 pos' nl', o = .String w ∧ s' = ⟨x :: t :: q2, 0, pos', nl'⟩ ∧
        isTerminator x = false ∧ x.utf8Size = 1 ∧ isTerminator t = true) := by
  intro rem
  induction rem with
  | nil =>
    intro k pos nl o s' hrem hk hpre h
    simp [parseWordGo] at h
    obtain ⟨ho, hs⟩ := h
    left
    refine ⟨ho.symm, ⟨pos, nl, hs.symm⟩, ?_⟩
    have hprog : program = program.take k := by
      conv_lhs => rw [← List.take_append_drop k program]
      rw [← hrem]; simp
    intro c hc
    exact hpre c (hprog ▸ hc)
  | cons c rest ih =>
    intro k pos nl o s' hrem hk hpre h
    by_cases ht : isTerminator c
    · -- terminator found at character index k
      simp only [parseWordGo] at h
      rw [if_pos ht] at h
      cases hbs : byteSplit program (utf8Len (program.take k) - 1) with
      | none => rw [hbs] at h; simp at h
      | some ab =>
        obtain ⟨a, b⟩ := ab
        rw [hbs] at h
        simp at h
        obtain ⟨ho, hs⟩ := h
        right
        obtain ⟨hab, hlen⟩ := byteSplit_eq_some program _ a b hbs
        have hkl : k < program.length := by
          have hld : (program.drop k).length = program.length - k :=
            List.length_drop k program
          rw [← hrem] at hld
          simp at hld
          omega
        have hL : 1 ≤ utf8Len (program.take k) := by
          rcases Nat.eq_zero_or_pos (utf8Len (program.take k)) with h0 | h0
          · exfalso
            have h1 := utf8Len_eq_zero.mp h0
            rw [List.take_eq_nil_iff] at h1
            rcases h1 with h' | h'
            · omega
            · rw [h'] at hkl; simp at hkl
          · exact h0
        have hta : program.take a.length = a := by
          conv_lhs => rw [hab]
          exact List.take_left a b
        have hma : a.length < k := by
          by_contra hcon
          push_neg at hcon
          have hmono := utf8Len_take_mono program hcon
          rw [hta] at hmono
          omega
        have hdm : ∃ x xs, program.drop a.length = x :: xs := by
          cases hd : program.drop a.length with
          | nil =>
            have hc2 := congrArg List.length hd
            simp [List.length_drop] at hc2
            omega
          | cons x xs => exact ⟨x, xs, rfl⟩
        obtain ⟨x, xs, hx⟩ := hdm
        have htake1 : program.take (a.length + 1) = a ++ [x] := by
          rw [take_succ_of_drop program a.length x xs hx, hta]
        have hlen1 : utf8Len (program.take (a.length + 1)) =
            (utf8Len (program.take k) - 1) + x.utf8Size := by
          rw [htake1, utf8Len_append, hlen]
          simp [utf8Len]
        have hxsize_pos := Char.utf8Size_pos x
        have hm1 : a.length + 1 = k := by
          by_contra hne
          have hlt : a.length + 1 < k := by omega
          have := utf8Len_take_lt program hlt (Nat.le_of_lt hkl)
          omega
        have hxs1 : x.utf8Size = 1 := by
          rw [hm1] at hlen1
          omega
        have hbdrop : b = program.drop a.length := by
          conv_rhs => rw [hab]
          exact (List.drop_left a b).symm
        have hxs_eq : xs = c :: rest := by
          have h1 := drop_cons_succ program a.length x xs hx
          rw [hm1] at h1
          exact (hrem.trans h1).symm
        have hxmem : x ∈ program.take k := by
          rw [← hm1, htake1]
          simp
        have hxnt : isTerminator x = false := hpre x hxmem
        refine ⟨a, x, c, rest, (stepPos pos nl c).1, (stepPos pos nl c).2,
          ho.symm, ?_, hxnt, hxs1, ht⟩
        rw [← hs, hbdrop, hx, hxs_eq]
    · -- not a terminator: the scan continues
      simp only [parseWordGo] at h
      rw [if_neg ht] at h
      have hrem' : rest = program.drop (k + 1) :=
        (drop_cons_succ program k c rest hrem.symm).symm
      have hpre' : ∀ c' ∈ program.take (k + 1), isTerminator c' = false := by
        intro c' hc'
        rw [take_succ_of_drop program k c rest hrem.symm] at hc'
        rcases List.mem_append.mp hc' with h' | h'
        · exact hpre c' h'
        · simp at h'
          subst h'
          simpa using ht
      exact ih (k + 1) _ _ o s' hrem' (by omega) hpre' h

/-! ### Characterization of one `parse_object` step -/

theorem run_obj_none (n : Nat) (s : ParserState) (j : Nat) (pos1 : TextPosition)
    (nl1 : Bool) (hsk : skipWhitespaces s = ⟨s.program, j, pos1, nl1⟩)
    (hend : s.program.drop j = []) :
    run (n + 1) (.obj s) = .ok (.obj (none, ⟨s.program, j, pos1, nl1⟩)) := by
  simp [run, hsk, next_end s.program j pos1 nl1 hend]

theorem obj_ok_cases (n : Nat) (s : ParserState) (o : LispObject) (s' : ParserState)
    (h : run n (.obj s) = .ok (.obj (some o, s'))) :
    (∃ w pos' nl', o = .String w ∧ w ≠ [] ∧ s' = ⟨[], 0, pos', nl'⟩ ∧
      ∀ c ∈ w, isTerminator c = false) ∨
    (∃ w, o = .String w ∧ Cyc s'.program ∧ s'.iter = 0) ∨
    (∃ w q2 pos' nl', o = .String w ∧ w ≠ [] ∧ s' = ⟨'"' :: q2, 0, pos', nl'⟩) := by
  cases n with
  | zero => simp [run] at h
  | succ m =>
    rcases skipWhitespaces_shape s with ⟨j, pos1, nl1, hsk, hend⟩ |
      ⟨c, q, pos1, nl1, hsk, hws⟩
    · rw [run_obj_none m s j pos1 nl1 hsk hend] at h
      simp at h
    · have hnext : (skipWhitespaces s).next =
          some ((0, c), ⟨c :: q, 1, (stepPos pos1 nl1 c).1, (stepPos pos1 nl1 c).2⟩) := by
        rw [hsk]; rfl
      rcases dispatch_cases c hws with hc | hc | hc | hc
      · subst hc
        rcases hr : run m (.lst ⟨'(' :: q, 1, (stepPos pos1 nl1 '(').1,
            (stepPos pos1 nl1 '(').2⟩ (stepPos pos1 nl1 '(').1 []) with _ | _ | ⟨e, s3⟩ | a
        · simp [run, hnext, hr] at h
        · simp [run, hnext, hr] at h
        · simp [run, hnext, hr] at h
        · exact absurd hr ((run_no_unexpected_and_lst_no_ok m).2 _ _ _ _)
      · subst hc
        simp [run, hnext] at h
      · subst hc
        rcases hstr : parseString ⟨'"' :: q, 1, (stepPos pos1 nl1 '"').1,
            (stepPos pos1 nl1 '"').2⟩ with _ | _ | ⟨e, s3⟩ | ⟨o1, s3⟩
        · simp [run, hnext, hstr] at h
        · simp [run, hnext, hstr] at h
        · simp [run, hnext, hstr] at h
        · simp [run, hnext, hstr] at h
          obtain ⟨ho, hs⟩ := h
          obtain ⟨j2, q2, pos', nl', hkj, hdropj, ho1, hs3⟩ :=
            parseStringGo_ok ('"' :: q) _ _ _ _ _ _ _ rfl hstr
          right; right
          have hk1 : 1 ≤ j2 := by simpa using hkj
          refine ⟨('"' :: q).take j2, q2, pos', nl', ?_, ?_, ?_⟩
          · rw [← ho, ho1]
          · intro hnil
            rw [List.take_eq_nil_iff] at hnil
            rcases hnil with h' | h'
            · omega
            · simp at h'
          · rw [← hs, hs3]
      · obtain ⟨hws', hne_q, hne_rp, hne_lp⟩ := isTerminator_false_parts c hc
        rcases hw : parseWord ⟨c :: q, 1, (stepPos pos1 nl1 c).1,
            (stepPos pos1 nl1 c).2⟩ with _ | _ | ⟨e, s3⟩ | ⟨o1, s3⟩
        · simp [run, hnext, hne_q, hne_rp, hne_lp, hw] at h
        · simp [run, hnext, hne_q, hne_rp, hne_lp, hw] at h
        · exact absurd hw (parseWordGo_no_err _ _ _ _ _ _ _)
        · simp [run, hnext, hne_q, hne_rp, hne_lp, hw] at h
          obtain ⟨ho, hs⟩ := h
          have hpre : ∀ c' ∈ (c :: q).take 1, isTerminator c' = false := by
            intro c' hc'
            simp at hc'
            subst hc'
            exact hc
          rcases parseWordGo_ok (c :: q) _ _ _ _ _ _ rfl (by omega) hpre hw with
            ⟨ho1, ⟨pos', nl', hs3⟩, hall⟩ |
            ⟨w, x, t, q2, pos', nl', ho1, hs3, hxnt, hx1, htt⟩
          · left
            exact ⟨c :: q, pos', nl', by rw [← ho, ho1], by simp,
              by rw [← hs, hs3], hall⟩
          · right; left
            refine ⟨w, by rw [← ho, ho1], ?_, ?_⟩
            · rw [← hs, hs3]
              exact ⟨x, t, q2, rfl, hxnt, hx1, htt⟩
            · rw [← hs, hs3]

/-! ### The empty program -/

theorem obj_empty_step (m : Nat) (pos : TextPosition) (nl : Bool) :
    run (m + 1) (.obj ⟨[], 0, pos, nl⟩) = .ok (.obj (none, ⟨[], 0, pos, nl⟩)) := by
  simp [run, skipWhitespaces, skipWsGo, ParserState.next]

theorem prog_empty_ok (n : Nat) (pos : TextPosition) (nl : Bool)
    (acc : List LispObject) (a : Ans)
    (h : run n (.prog ⟨[], 0, pos, nl⟩ acc) = .ok a) : a = .prog acc := by
  cases n with
  | zero => simp [run] at h
  | succ m =>
    cases m with
    | zero => simp [run] at h
    | succ k =>
      rw [run] at h
      rw [obj_empty_step k pos nl] at h
      simp at h
      exact h.symm

/-! ### The word-terminator cycle: `parse_object` returns an empty atom and
does not advance, so the enclosing loop never terminates -/

theorem obj_cyc_step (k : Nat) (x t : Char) (q : List Char) (pos : TextPosition)
    (nl : Bool) (hx : isTerminator x = false) (hxs : x.utf8Size = 1)
    (ht : isTerminator t = true) :
    ∃ pos' nl', run (k + 1) (.obj ⟨x :: t :: q, 0, pos, nl⟩) =
      .ok (.obj (some (.String []), ⟨x :: t :: q, 0, pos', nl'⟩)) := by
  obtain ⟨hws, hne_q, hne_rp, hne_lp⟩ := isTerminator_false_parts x hx
  have hsk : skipWhitespaces ⟨x :: t :: q, 0, pos, nl⟩ =
      ⟨x :: t :: q, 0, (stepPos pos nl x).1, (stepPos pos nl x).2⟩ := by
    simp [skipWhitespaces, skipWsGo, hws]
  have hnext : (skipWhitespaces ⟨x :: t :: q, 0, pos, nl⟩).next =
      some ((0, x), ⟨x :: t :: q, 1,
        (stepPos (stepPos pos nl x).1 (stepPos pos nl x).2 x).1,
        (stepPos (stepPos pos nl x).1 (stepPos pos nl x).2 x).2⟩) := by
    rw [hsk]; rfl
  have hword := parseWordGo_term_head (x :: t :: q) t q
    (stepPos (stepPos pos nl x).1 (stepPos pos nl x).2 x).1
    (stepPos (stepPos pos nl x).1 (stepPos pos nl x).2 x).2 ht
    (by simp [utf8Len, hxs])
  refine ⟨(stepPos (stepPos (stepPos pos nl x).1 (stepPos pos nl x).2 x).1
      (stepPos (stepPos pos nl x).1 (stepPos pos nl x).2 x).2 t).1,
    (stepPos (stepPos (stepPos pos nl x).1 (stepPos pos nl x).2 x).1
      (stepPos (stepPos pos nl x).1 (stepPos pos nl x).2 x).2 t).2, ?_⟩
  simp [run, hnext, hne_q, hne_rp, hne_lp, parseWord, hword]

theorem prog_cyc (n : Nat) (p : List Char) (hc : Cyc p) :
    ∀ (pos : TextPosition) (nl : Bool) (acc : List LispObject),
      run n (.prog ⟨p, 0, pos, nl⟩ acc) = .fuelOut := by
  induction n with
  | zero => intro pos nl acc; simp [run]
  | succ m ih =>
    intro pos nl acc
    obtain ⟨x, t, q, hp, hx, hxs, ht⟩ := hc
    subst hp
    cases m with
    | zero => simp [run]
    | succ k =>
      obtain ⟨pos', nl', hstep⟩ := obj_cyc_step k x t q pos nl hx hxs ht
      rw [run, hstep]
      simp
      exact ih pos' nl' (acc ++ [.String []])

/-! ### A program slice beginning with `"` can never lead the program loop
to return `Ok`: each quoted atom leaves the program at its own closing
quote, which is re-read as a new opening quote -/

theorem prog_quote_noOk (n : Nat) :
    ∀ (q : List Char) (pos : TextPosition) (nl : Bool) (acc : List LispObject)
      (a : Ans), run n (.prog ⟨'"' :: q, 0, pos, nl⟩ acc) ≠ .ok a := by
  induction n with
  | zero => intro q pos nl acc a h; simp [run] at h
  | succ m ih =>
    intro q pos nl acc a h
    cases m with
    | zero => simp [run] at h
    | succ k =>
      have hws : rustIsWhitespace '"' = false := rfl
      have hsk : skipWhitespaces ⟨'"' :: q, 0, pos, nl⟩ =
          ⟨'"' :: q, 0, (stepPos pos nl '"').1, (stepPos pos nl '"').2⟩ := by
        simp [skipWhitespaces, skipWsGo, hws]
      have hnext : (skipWhitespaces ⟨'"' :: q, 0, pos, nl⟩).next =
          some ((0, '"'), ⟨'"' :: q, 1,
            (stepPos (stepPos pos nl '"').1 (stepPos pos nl '"').2 '"').1,
            (stepPos (stepPos pos nl '"').1 (stepPos pos nl '"').2 '"').2⟩) := by
        rw [hsk]; rfl
      rcases hstr : parseString ⟨'"' :: q, 1,
          (stepPos (stepPos pos nl '"').1 (stepPos pos nl '"').2 '"').1,
          (stepPos (stepPos pos nl '"').1 (stepPos pos nl '"').2 '"').2⟩ with
        _ | _ | ⟨e, s3⟩ | ⟨o1, s3⟩
      · simp [run, hnext, hstr] at h
      · simp [run, hnext, hstr] at h
      · simp [run, hnext, hstr] at h
      · obtain ⟨j2, q2, pos', nl', hkj, hdropj, ho1, hs3⟩ :=
          parseStringGo_ok ('"' :: q) _ _ _ _ _ _ _ rfl hstr
        subst hs3
        have hobj : run (k + 1) (.obj ⟨'"' :: q, 0, pos, nl⟩) =
            .ok (.obj (some o1, ⟨'"' :: q2, 0, pos', nl'⟩)) := by
          simp [run, hnext, hstr]
        rw [run, hobj] at h
        simp at h
        exact ih q2 pos' nl' (acc ++ [o1]) a h

/-! ### Characterization of successful program parses: the only `Ok` results
are the empty program and a single word running to end of input -/

theorem prog_ok_cases (n : Nat) (s : ParserState) (acc objs : List LispObject)
    (h : run n (.prog s acc) = .ok (.prog objs)) :
    objs = acc ∨ ∃ w, objs = acc ++ [.String w] ∧ w ≠ [] ∧
      ∀ c ∈ w, isTerminator c = false := by
  cases n with
  | zero => simp [run] at h
  | succ m =>
    rw [run] at h
    cases hr : run m (.obj s) with
    | fuelOut => rw [hr] at h; simp at h
    | panicked => rw [hr] at h; simp at h
    | err e s3 => rw [hr] at h; simp at h
    | ok a =>
      cases a with
      | lst r => rw [hr] at h; simp at h
      | prog r => rw [hr] at h; simp at h
      | obj r =>
        obtain ⟨oo, s'⟩ := r
        cases oo with
        | none =>
          rw [hr] at h
          simp at h
          exact Or.inl h.symm
        | some o =>
          rw [hr] at h
          simp at h
          rcases obj_ok_cases m s o s' hr with
            ⟨w, pos', nl', ho, hwne, hs', hall⟩ |
            ⟨w, ho, hcyc, hiter⟩ |
            ⟨w, q2, pos', nl', ho, hwne, hs'⟩
          · subst hs'
            have h2 := prog_empty_ok m pos' nl' (acc ++ [o]) _ h
            right
            refine ⟨w, ?_, hwne, hall⟩
            injection h2 with h3
            rw [h3, ho]
          · obtain ⟨sp, si, st, sl⟩ := s'
            simp at hiter hcyc
            subst hiter
            rw [prog_cyc m sp hcyc st sl (acc ++ [o])] at h
            simp at h
          · subst hs'
            exact absurd h (prog_quote_noOk m q2 pos' nl' (acc ++ [o]) _)

/-! ### Whitespace-only inputs -/

theorem skipWsGo_allws (program : List Char) :
    ∀ (rem : List Char) (k : Nat) (pos : TextPosition) (nl : Bool),
      (∀ c ∈ rem, rustIsWhitespace c = true) →
      ∃ pos' nl', skipWsGo program rem k pos nl =
        ⟨program, k + rem.length, pos', nl'⟩ := by
  intro rem
  induction rem with
  | nil => intro k pos nl _; exact ⟨pos, nl, by simp [skipWsGo]⟩
  | cons c rest ih =>
    intro k pos nl hall
    have hc : rustIsWhitespace c = true := hall c (by simp)
    obtain ⟨pos', nl', hres⟩ := ih (k + 1) (stepPos pos nl c).1 (stepPos pos nl c).2
      (fun c' hc' => hall c' (by simp [hc']))
    refine ⟨pos', nl', ?_⟩
    rw [show (c :: rest : List Char).length = rest.length + 1 from rfl,
      show k + (rest.length + 1) = (k + 1) + rest.length by omega]
    simpa [skipWsGo, hc] using hres

/-! ### Pure-word inputs parse to the single word -/

theorem obj_word_all (m : Nat) (c : Char) (q : List Char) (pos : TextPosition)
    (nl : Bool) (hc : isTerminator c = false)
    (hall : ∀ c' ∈ q, isTerminator c' = false) :
    ∃ pos' nl', run (m + 1) (.obj ⟨c :: q, 0, pos, nl⟩) =
      .ok (.obj (some (.String (c :: q)), ⟨[], 0, pos', nl'⟩)) := by
  obtain ⟨hws, hne_q, hne_rp, hne_lp⟩ := isTerminator_false_parts c hc
  have hsk : skipWhitespaces ⟨c :: q, 0, pos, nl⟩ =
      ⟨c :: q, 0, (stepPos pos nl c).1, (stepPos pos nl c).2⟩ := by
    simp [skipWhitespaces, skipWsGo, hws]
  have hnext : (skipWhitespaces ⟨c :: q, 0, pos, nl⟩).next =
      some ((0, c), ⟨c :: q, 1,
        (stepPos (stepPos pos nl c).1 (stepPos pos nl c).2 c).1,
        (stepPos (stepPos pos nl c).1 (stepPos pos nl c).2 c).2⟩) := by
    rw [hsk]; rfl
  obtain ⟨pos', nl', hword⟩ := parseWordGo_all_nonterm (c :: q) q 1
    (stepPos (stepPos pos nl c).1 (stepPos pos nl c).2 c).1
    (stepPos (stepPos pos nl c).1 (stepPos pos nl c).2 c).2 hall
  exact ⟨pos', nl', by
    simp [run, hnext, hne_q, hne_rp, hne_lp, parseWord, hword]⟩

theorem prog_nil_ok (k : Nat) (pos : TextPosition) (nl : Bool)
    (acc : List LispObject) :
    run (k + 1 + 1) (.prog ⟨[], 0, pos, nl⟩ acc) = .ok (.prog acc) := by
  rw [run, obj_empty_step k pos nl]

theorem prog_single_word (k : Nat) (w : List Char) (hw : w ≠ [])
    (hall : ∀ c ∈ w, isTerminator c = false) (pos : TextPosition) (nl : Bool)
    (acc : List LispObject) :
    run (k + 1 + 1 + 1) (.prog ⟨w, 0, pos, nl⟩ acc) =
      .ok (.prog (acc ++ [.String w])) := by
  cases w with
  | nil => exact absurd rfl hw
  | cons c q =>
    have hc := hall c (by simp)
    have hq : ∀ c' ∈ q, isTerminator c' = false := fun c' h' => hall c' (by simp [h'])
    obtain ⟨pos', nl', hobj⟩ := obj_word_all (k + 1) c q pos nl hc hq
    rw [run, hobj]
    exact prog_nil_ok k pos' nl' (acc ++ [.String (c :: q)])

/-! ### From the public entry point down to `run` -/

theorem parseLispProgram_ok_run (fuel : Nat) (input : List Char)
    (objs : List LispObject) (h : parseLispProgram fuel input = .ok objs) :
    run fuel (.prog ⟨input, 0, ⟨1, 1⟩, false⟩ []) = .ok (.prog objs) := by
  unfold parseLispProgram at h
  cases hx : run fuel (.prog ⟨input, 0, ⟨1, 1⟩, false⟩ []) with
  | fuelOut => rw [hx] at h; simp at h
  | panicked => rw [hx] at h; simp at h
  | err e s => rw [hx] at h; simp at h
  | ok a =>
    cases a with
    | obj r => rw [hx] at h; simp at h
    | lst r => rw [hx] at h; simp at h
    | prog l =>
      rw [hx] at h
      simp at h
      rw [h]

/-! ### Claim theorems -/

/-- Claim C1 (code behavior at the claimed counterexample): on the input
`( )\n)` the parser returns `UnclosedParenthesis` at line 1, column 5 — not
`UnexpectedClosingParenthesis` at line 2, column 1 as the specification and
the in-repo test `test_unexpected_closing_parenthesis_error` state.  The `')'`
arm of `parse_object` in lib.rs constructs `UnclosedParenthesis`, and
positions are double-advanced because `skip_whitespaces` re-slices the
program after already consuming the dispatch character. -/
theorem claim_C1_code_result :
    parseLispProgram 10 ("( )\n)".toList) =
      .err (.UnclosedParenthesis ⟨1, 5⟩) := by rfl

/-- Claim C3 (code behavior at the claimed example): parsing the
five-character input `"a b"` does not yield the atom `"a b"`; `parse_string`
slices `program[..index]`, which excludes the closing quote, and leaves the
program at that quote, so it is re-read as a new opening quote and the parse
fails with `UnclosedQuote` (at the double-advanced position line 1, column
9). -/
theorem claim_C3_code_result :
    parseLispProgram 10 ("\"a b\"".toList) = .err (.UnclosedQuote ⟨1, 9⟩) := by
  rfl

/-- Claim C5 (code behavior at the claimed example): on the input `(` the
parser does return `UnclosedParenthesis`, but at line 1, column 3 rather than
at the position of the `(` (line 1, column 1) stated by the specification and
by the in-repo test `test_unclosed_parenthesis_error`: the `(` advances the
position once in `skip_whitespaces` and once again in `parse_object`'s
`next`, and `parse_list` records its opening position only after both. -/
theorem claim_C5_code_result :
    parseLispProgram 10 ("(".toList) = .err (.UnclosedParenthesis ⟨1, 3⟩) := by
  rfl

/-- Claim C6 (code behavior at the claimed example): on the input `("\nabc)`
the parser returns `UnclosedQuote` at line 1, column 5 rather than at the
position of the opening quote (line 1, column 2) stated by the specification
and by the in-repo test `test_unclosed_quote`; each consumed character
advances the position twice (once in `skip_whitespaces`, once in `next`). -/
theorem claim_C6_code_result :
    parseLispProgram 10 ("(\"\nabc)".toList) = .err (.UnclosedQuote ⟨1, 5⟩) := by
  rfl

/-- Claim C7 (code behavior at a panicking input): on the two-character input
`é ` (a two-byte character followed by a space) the parser panics:
`parse_word` slices at `index - 1`, byte offset 1, which is not a character
boundary of `é`. -/
theorem claim_C7_code_result :
    parseLispProgram 10 ("é ".toList) = .panicked := by rfl

/-- Claim C10: the public entry point never returns
`UnexpectedClosingParenthesis`: the `')'` dispatch arm of `parse_object` in
lib.rs constructs `UnclosedParenthesis`, so no reachable code path builds the
`UnexpectedClosingParenthesis` variant, and every reported error is
`UnclosedQuote` or `UnclosedParenthesis`. -/
theorem claim_C10_no_unexpected (fuel : Nat) (input : List Char)
    (e : LispParsingError) (h : parseLispProgram fuel input = .err e) :
    (∃ p, e = .UnclosedQuote p) ∨ (∃ p, e = .UnclosedParenthesis p) := by
  unfold parseLispProgram at h
  cases hx : run fuel (.prog ⟨input, 0, ⟨1, 1⟩, false⟩ []) with
  | fuelOut => rw [hx] at h; simp at h
  | panicked => rw [hx] at h; simp at h
  | ok a =>
    cases a with
    | obj r => rw [hx] at h; simp at h
    | lst r => rw [hx] at h; simp at h
    | prog l => rw [hx] at h; simp at h
  | err e' s =>
    rw [hx] at h
    simp at h
    subst h
    cases e' with
    | UnclosedQuote p => exact Or.inl ⟨p, rfl⟩
    | UnclosedParenthesis p => exact Or.inr ⟨p, rfl⟩
    | UnexpectedClosingParenthesis p =>
      exact absurd hx ((run_no_unexpected_and_lst_no_ok fuel).1 _ _ _)

/-- Witness for claim C10 at a concrete input: parsing `)` reports
`UnclosedParenthesis` (not `UnexpectedClosingParenthesis`). -/
theorem claim_C10_witness :
    parseLispProgram 10 (")".toList) = .err (.UnclosedParenthesis ⟨1, 2⟩) ∧
      ((∃ p, LispParsingError.UnclosedParenthesis ⟨1, 2⟩ = .UnclosedQuote p) ∨
        (∃ p, LispParsingError.UnclosedParenthesis ⟨1, 2⟩ =
          .UnclosedParenthesis p)) :=
  ⟨by rfl, claim_C10_no_unexpected 10 (")".toList) _ (by rfl)⟩

/-- Claim C9: the empty input and every input consisting solely of whitespace
characters (Rust `char::is_whitespace`, i.e. Unicode White_Space, which
includes space, tab, line feed and carriage return) parse to `Ok` with an
empty sequence of top-level objects. -/
theorem claim_C9_whitespace_only (input : List Char) (fuel : Nat)
    (hall : ∀ c ∈ input, rustIsWhitespace c = true) (hf : 2 ≤ fuel) :
    parseLispProgram fuel input = .ok [] := by
  obtain ⟨k, rfl⟩ : ∃ k, fuel = k + 1 + 1 := ⟨fuel - 2, by omega⟩
  obtain ⟨pos', nl', hsk0⟩ := skipWsGo_allws input input 0 ⟨1, 1⟩ false hall
  have hsk : skipWhitespaces ⟨input, 0, ⟨1, 1⟩, false⟩ =
      ⟨input, input.length, pos', nl'⟩ := by
    simpa [skipWhitespaces] using hsk0
  have hobj : run (k + 1) (.obj ⟨input, 0, ⟨1, 1⟩, false⟩) =
      .ok (.obj (none, ⟨input, input.length, pos', nl'⟩)) :=
    run_obj_none k _ input.length pos' nl' hsk (List.drop_length input)
  have hprog : run (k + 1 + 1) (.prog ⟨input, 0, ⟨1, 1⟩, false⟩ []) =
      .ok (.prog []) := by
    rw [run, hobj]
  simp [parseLispProgram, hprog]

/-- Witness for claim C9: the whitespace-only input of the in-repo test
`test_whitespaces_program` parses to the empty sequence. -/
theorem claim_C9_witness :
    (∀ c ∈ ("   \t \n  \n\t    \r    ").toList, rustIsWhitespace c = true) ∧
      2 ≤ 10 ∧
      parseLispProgram 10 (("   \t \n  \n\t    \r    ").toList) = .ok [] :=
  ⟨by decide, by omega,
    claim_C9_whitespace_only _ 10 (by decide) (by omega)⟩

/-- Claim C4: every `String` atom occurring in an `Ok` parse result is
non-empty.  (The only successful results of lib.rs are the empty object list
and a single word atom running to end of input, which is non-empty; the code
paths that would produce an empty atom never let the parse terminate.) -/
theorem claim_C4_atoms_nonempty (input : List Char) (fuel : Nat)
    (objs : List LispObject) (h : parseLispProgram fuel input = .ok objs) :
    AtomsNonEmptyList objs := by
  have hrun := parseLispProgram_ok_run fuel input objs h
  rcases prog_ok_cases fuel _ [] objs hrun with h0 | ⟨w, hobjs, hwne, hall⟩
  · subst h0
    simp [AtomsNonEmptyList]
  · rw [hobjs]
    simp [AtomsNonEmptyList, AtomsNonEmpty, hwne]

/-- Witness for claim C4: parsing `ab` yields the single non-empty atom
`ab`. -/
theorem claim_C4_witness :
    parseLispProgram 10 ("ab".toList) = .ok [.String ['a', 'b']] ∧
      AtomsNonEmptyList [.String ['a', 'b']] :=
  ⟨by rfl, claim_C4_atoms_nonempty ("ab".toList) 10 _ (by rfl)⟩

/-- Claim C8: if a parse returns `Ok` with a tree, rendering that tree (atoms
verbatim, parentheses around list children, arbitrary non-empty whitespace
between siblings) re-parses to an equal tree. -/
theorem claim_C8_reparse (fuel : Nat) (input : List Char)
    (objs : List LispObject) (out : List Char) (fuel' : Nat)
    (hp : parseLispProgram fuel input = .ok objs) (hr : RendersSibs objs out)
    (hf : 3 ≤ fuel') : parseLispProgram fuel' out = .ok objs := by
  have hrun := parseLispProgram_ok_run fuel input objs hp
  rcases prog_ok_cases fuel _ [] objs hrun with h0 | ⟨w, hobjs, hwne, hall⟩
  · subst h0
    cases hr
    obtain ⟨k, rfl⟩ : ∃ k, fuel' = k + 1 + 1 + 1 := ⟨fuel' - 3, by omega⟩
    have hprog := prog_nil_ok (k + 1) (⟨1, 1⟩ : TextPosition) false []
    simp [parseLispProgram, hprog]
  · rw [List.nil_append] at hobjs
    subst hobjs
    cases hr with
    | single o r hro =>
      cases hro
      obtain ⟨k, rfl⟩ : ∃ k, fuel' = k + 1 + 1 + 1 := ⟨fuel' - 3, by omega⟩
      have hprog := prog_single_word k out hwne hall ⟨1, 1⟩ false []
      simp [parseLispProgram, hprog]
    | cons o r sep rr rest hro hrestne hsepne hsepws hrr =>
      exact absurd rfl hrestne

/-- Witness for claim C8: `ab` parses to the atom `ab`, whose rendering is
`ab` itself, and re-parsing returns the same tree. -/
theorem claim_C8_witness :
    parseLispProgram 10 ("ab".toList) = .ok [.String ['a', 'b']] ∧
      RendersSibs [.String ['a', 'b']] ['a', 'b'] ∧ 3 ≤ 10 ∧
      parseLispProgram 10 ['a', 'b'] = .ok [.String ['a', 'b']] :=
  ⟨by rfl, .single _ _ (.str _), by omega,
    claim_C8_reparse 10 ("ab".toList) _ ['a', 'b'] 10 (by rfl)
      (.single _ _ (.str _)) (by omega)⟩

/-- Claim C2 (code behavior at the claimed input): on the mixed program of
the in-repo test `complex_program_parsing_test` the parser does not terminate
at all (for every fuel bound the interpreter runs out of fuel): after the
leading whitespace, `parse_word` finds the terminator `'\n'` directly after
`a`, returns the empty slice `program[..0]` and resets the program unchanged,
so the program loop repeats the same step forever. -/
theorem claim_C2_mixed_diverges (fuel : Nat) :
    parseLispProgram fuel mixedProgram = .fuelOut := by
  have hrun : ∀ n, run n (.prog ⟨mixedProgram, 0, ⟨1, 1⟩, false⟩ []) =
      .fuelOut := by
    intro n
    cases n with
    | zero => simp [run]
    | succ m =>
      cases m with
      | zero => simp [run]
      | succ k =>
        have hobj : run (k + 1) (.obj ⟨mixedProgram, 0, ⟨1, 1⟩, false⟩) =
            .ok (.obj (some (.String []),
              ⟨mixedProgram.drop 13, 0, ⟨2, 15⟩, true⟩)) := by rfl
        rw [run, hobj]
        have hcyc : Cyc (mixedProgram.drop 13) :=
          ⟨'a', '\n', mixedProgram.drop 15, by rfl, by rfl, by rfl, by rfl⟩
        exact prog_cyc (k + 1) (mixedProgram.drop 13) hcyc ⟨2, 15⟩ true
          ([] ++ [.String []])
  simp [parseLispProgram, hrun]

/-- Witness for claim C2 at a concrete fuel bound. -/
theorem claim_C2_witness : parseLispProgram 50 mixedProgram = .fuelOut :=
  claim_C2_mixed_diverges 50

end LispParser
